import Mathlib

/-!
# Verification of the DCA return simulator (`dcaCalculator`)

A shallow embedding of the Dollar-Cost-Averaging simulator found in the
repository's main script (object `dcaCalculator`): the schedule generator
`generateInvestmentDates` and the return computation `calculateReturns`,
together with the calendar-date arithmetic of the host `Date` object that
the generator relies on (`setDate`, `setMonth` with JavaScript overflow
normalisation).

Modelling conventions:
* Calendar dates are triples year/month/day (`SimDate`, month `1..12`),
  compared through `toDays`, the number of days since the proleptic
  Gregorian epoch; this mirrors the host `Date` comparison on timestamps
  at day granularity (the simulator only ever handles midnight dates).
* JavaScript numbers are embedded as rationals `ℚ`.  A division whose
  denominator is zero produces `NaN`/`Infinity` in JavaScript; the
  embedding returns `none : Option ℚ` for those fields (`jsDiv`), and a
  field that can receive `undefined`/`NaN` (mark-to-market values when
  the price series is empty) is likewise an `Option ℚ`.
* The day-keyed price object built by `fetchHistoricalPrices` is embedded
  as an insertion-ordered association list with distinct keys
  (`PriceSeries`); `priceData[dateStr]` is `plookup` and
  `Object.values(priceData).pop()` is the value of the last entry.
* The `while (currentDate <= endDate)` loop of `generateInvestmentDates`
  is embedded with explicit fuel (`genDatesFuel`); `none` means the loop
  has not terminated within the given fuel.
-/

/-- A calendar date at day granularity: year, month (1–12), day (1–31).
Mirrors the `Date` values handled by the simulator (always midnight). -/
structure SimDate where
  y : ℕ
  m : ℕ
  d : ℕ
deriving DecidableEq, Repr

/-- Gregorian leap-year test, as implemented by the host `Date` object. -/
def isLeap (y : ℕ) : Bool :=
  decide ((y % 4 = 0 ∧ ¬ y % 100 = 0) ∨ y % 400 = 0)

/-- Length of month `m` (1–12) of year `y`, as used by `Date` overflow
normalisation. -/
def daysInMonth (y m : ℕ) : ℕ :=
  if m = 2 then (if isLeap y then 29 else 28)
  else if m = 4 ∨ m = 6 ∨ m = 9 ∨ m = 11 then 30
  else 31

/-- Number of leap years strictly before year `y` (year 0 counted leap),
in closed form. -/
def leapCount (y : ℕ) : ℕ :=
  if y = 0 then 0 else (y - 1) / 4 - (y - 1) / 100 + (y - 1) / 400 + 1

/-- Days of year `y` that precede month `m`. -/
def daysBeforeMonth (y : ℕ) : ℕ → ℕ
  | 0 => 0
  | 1 => 0
  | m + 1 => daysBeforeMonth y m + daysInMonth y m

/-- Linear day count of a date (days since the proleptic epoch); the
embedding of the host timestamp at day granularity, used for the loop
comparison `currentDate <= endDate` and for measuring gaps. -/
def toDays (x : SimDate) : ℕ :=
  365 * x.y + leapCount x.y + daysBeforeMonth x.y x.m + x.d

/-- A date is valid when its month is in 1–12 and its day fits the month. -/
def ValidDate (x : SimDate) : Prop :=
  1 ≤ x.m ∧ x.m ≤ 12 ∧ 1 ≤ x.d ∧ x.d ≤ daysInMonth x.y x.m

instance (x : SimDate) : Decidable (ValidDate x) := by
  unfold ValidDate; infer_instance

/-- Successor day in the Gregorian calendar: one step of the host `Date`
normalisation that `setDate(getDate() + n)` performs. -/
def nextDay (x : SimDate) : SimDate :=
  if x.d < daysInMonth x.y x.m then ⟨x.y, x.m, x.d + 1⟩
  else if x.m < 12 then ⟨x.y, x.m + 1, 1⟩
  else ⟨x.y + 1, 1, 1⟩

/-- `currentDate.setDate(currentDate.getDate() + n)` for a nonnegative
`n`: advance `n` calendar days. -/
def addDays : ℕ → SimDate → SimDate
  | 0, x => x
  | n + 1, x => addDays n (nextDay x)

/-- `currentDate.setMonth(currentDate.getMonth() + 1)`: move to the next
month keeping the day-of-month, and let a day-of-month that does not
exist there overflow into the following month (JavaScript `Date`
normalisation — no clamping). -/
def addMonthJS (x : SimDate) : SimDate :=
  let y' := if x.m = 12 then x.y + 1 else x.y
  let m' := if x.m = 12 then 1 else x.m + 1
  let L := daysInMonth y' m'
  if x.d ≤ L then ⟨y', m', x.d⟩
  else if m' = 12 then ⟨y' + 1, 1, x.d - L⟩
  else ⟨y', m' + 1, x.d - L⟩

/-- The `switch (frequency)` body of `generateInvestmentDates`: advance
the running date by the cadence step.  A frequency that matches no case
leaves the date unchanged (the `switch` has no `default` arm). -/
def advanceDate (frequency : String) (x : SimDate) : SimDate :=
  if frequency = "daily" then addDays 1 x
  else if frequency = "weekly" then addDays 7 x
  else if frequency = "biweekly" then addDays 14 x
  else if frequency = "monthly" then addMonthJS x
  else x

/-- The four cadence values recognised by the `switch`. -/
def validCadence (frequency : String) : Prop :=
  frequency = "daily" ∨ frequency = "weekly" ∨ frequency = "biweekly" ∨
    frequency = "monthly"

instance (frequency : String) : Decidable (validCadence frequency) := by
  unfold validCadence; infer_instance

/-- Nominal calendar-day step of a cadence taken at date `x`. -/
def stepOf (frequency : String) (x : SimDate) : ℕ :=
  if frequency = "daily" then 1
  else if frequency = "weekly" then 7
  else if frequency = "biweekly" then 14
  else if frequency = "monthly" then daysInMonth x.y x.m
  else 0

/-- The `while (currentDate <= endDate)` loop of
`generateInvestmentDates`, with explicit fuel: pushes a copy of the
running date, then advances it by the cadence; `none` when the loop has
not finished within `fuel` iterations. -/
def genDatesFuel : ℕ → SimDate → SimDate → String → Option (List SimDate)
  | 0, _, _, _ => none
  | fuel + 1, cur, endD, frequency =>
    if toDays cur ≤ toDays endD then
      (genDatesFuel fuel (advanceDate frequency cur) endD frequency).map
        (cur :: ·)
    else
      some []

/-- `dcaCalculator.generateInvestmentDates(startDate, endDate, frequency)`
with a fuel bound large enough for every recognised cadence (each loop
iteration advances the date by at least one day). -/
def generateInvestmentDates (startDate endDate : SimDate)
    (frequency : String) : Option (List SimDate) :=
  genDatesFuel (toDays endDate + 2 - toDays startDate) startDate endDate
    frequency

/-- The day-keyed price object built by `fetchHistoricalPrices` from the
provider's `[timestamp, price]` pairs: an insertion-ordered association
list from calendar date to price (object keys are distinct). -/
abbrev PriceSeries := List (SimDate × ℚ)

/-- `priceData[dateStr]`: look the date up among the object's keys. -/
def plookup (priceData : PriceSeries) (date : SimDate) : Option ℚ :=
  (priceData.find? (fun p => p.1 == date)).map (fun p => p.2)

/-- One element of the `investments` array of `calculateReturns`.  The
JavaScript object's `return` property is named `ret` here (`return` is a
reserved word in Lean).  `value` and `ret` are `Option ℚ` because the
code computes them by multiplying with `currentPrice`, which is
`undefined` (hence NaN results) when the price object is empty. -/
structure Investment where
  date : SimDate
  amount : ℚ
  price : ℚ
  coins : ℚ
  value : Option ℚ
  ret : Option ℚ
deriving DecidableEq, Repr

/-- The body of the `dates.map(...)` callback of `calculateReturns`:
look up the price; `if (!price) return null` drops an absent or zero
price; otherwise build the investment object with
`coins = amount / price`, `value = amount`, `return = 0`. -/
def mkInvestment (amount : ℚ) (priceData : PriceSeries)
    (date : SimDate) : Option Investment :=
  (plookup priceData date).bind (fun price =>
    if price = 0 then none
    else some { date := date, amount := amount, price := price,
                coins := amount / price, value := some amount,
                ret := some 0 })

/-- JavaScript division embedded in `ℚ`: a zero denominator yields a
non-finite result (`NaN` or `±Infinity`), encoded as `none`. -/
def jsDiv (a b : ℚ) : Option ℚ :=
  if b = 0 then none else some (a / b)

/-- The `investments.forEach(...)` loop of `calculateReturns`: walk the
retained investments with running totals `totalCoins`/`totalInvested`,
overwriting each element's `value` with `totalCoins * currentPrice` and
its `return` with `value - totalInvested`.  Returns the updated list and
the final totals. -/
def runSim (currentPrice : Option ℚ) :
    List Investment → ℚ → ℚ → List Investment × ℚ × ℚ
  | [], totalCoins, totalInvested => ([], totalCoins, totalInvested)
  | inv :: rest, totalCoins, totalInvested =>
    let tc := totalCoins + inv.coins
    let ti := totalInvested + inv.amount
    let r := runSim currentPrice rest tc ti
    ({ inv with value := currentPrice.map (fun c => tc * c),
                ret := currentPrice.map (fun c => tc * c - ti) } :: r.1,
     r.2)

/-- The `summary` object of `calculateReturns`.  Fields computed by a
division, or by multiplying with a possibly-`undefined` `currentPrice`,
are `Option ℚ` (`none` encodes a non-finite JavaScript number). -/
structure Summary where
  totalInvested : ℚ
  totalCoins : ℚ
  currentPrice : Option ℚ
  currentValue : Option ℚ
  totalReturn : Option ℚ
  returnPercentage : Option ℚ
  averagePrice : Option ℚ
deriving DecidableEq, Repr

/-- The value returned by `calculateReturns`. -/
structure DCAResult where
  investments : List Investment
  summary : Summary
deriving DecidableEq, Repr

/-- `dcaCalculator.calculateReturns(dates, amount, priceData)`:
`dates.map(...).filter(inv => inv !== null)` is the `filterMap`;
`currentPrice = Object.values(priceData).pop()` is the value of the
object's last entry (`none` when the object is empty); then the
`forEach` with running totals, and the summary computed from the final
totals. -/
def calculateReturns (dates : List SimDate) (amount : ℚ)
    (priceData : PriceSeries) : DCAResult :=
  let invs := dates.filterMap (mkInvestment amount priceData)
  let currentPrice := priceData.getLast?.map (fun p => p.2)
  let r := runSim currentPrice invs 0 0
  { investments := r.1
    summary :=
      { totalInvested := r.2.2
        totalCoins := r.2.1
        currentPrice := currentPrice
        currentValue := currentPrice.map (fun c => r.2.1 * c)
        totalReturn := currentPrice.map (fun c => r.2.1 * c - r.2.2)
        returnPercentage :=
          match currentPrice with
          | none => none
          | some c => (jsDiv (r.2.1 * c) r.2.2).map (fun q => (q - 1) * 100)
        averagePrice := jsDiv r.2.2 r.2.1 } }

/-- Removing the price entry of date `d` from the price object. -/
def removeEntry (priceData : PriceSeries) (d : SimDate) : PriceSeries :=
  priceData.filter (fun kv => !(kv.1 == d))

theorem daysInMonth_ge (y m : ℕ) : 28 ≤ daysInMonth y m := by
  unfold daysInMonth; split
  · split <;> omega
  · split <;> omega

theorem daysInMonth_le (y m : ℕ) : daysInMonth y m ≤ 31 := by
  unfold daysInMonth; split
  · split <;> omega
  · split <;> omega

theorem daysBeforeMonth_succ (y m : ℕ) (h : 1 ≤ m) :
    daysBeforeMonth y (m + 1) = daysBeforeMonth y m + daysInMonth y m := by
  match m, h with
  | 1, _ => rfl
  | (k + 2), _ => rfl

theorem leapCount_succ (y : ℕ) :
    leapCount (y + 1) = leapCount y + (if isLeap y then 1 else 0) := by
  cases y with
  | zero => decide
  | succ z =>
    unfold leapCount isLeap
    simp only [Nat.succ_ne_zero, if_false, Nat.add_sub_cancel,
      decide_eq_true_eq]
    split <;> (rename_i h; omega)

theorem daysBeforeMonth_twelve (y : ℕ) :
    daysBeforeMonth y 12 = 334 + (if isLeap y then 1 else 0) := by
  cases h : isLeap y <;> simp [daysBeforeMonth, daysInMonth, h]

theorem nextDay_valid (x : SimDate) (hx : ValidDate x) :
    ValidDate (nextDay x) := by
  obtain ⟨h1, h2, h3, h4⟩ := hx
  have g1 := daysInMonth_ge x.y (x.m + 1)
  have g2 := daysInMonth_ge (x.y + 1) 1
  unfold nextDay ValidDate
  split
  · dsimp only
    omega
  · split <;> (dsimp only; omega)

theorem toDays_nextDay (x : SimDate) (hx : ValidDate x) :
    toDays (nextDay x) = toDays x + 1 := by
  obtain ⟨h1, h2, h3, h4⟩ := hx
  unfold nextDay toDays
  split
  · dsimp only
    omega
  · split
    · rename_i hlt hm
      have hb := daysBeforeMonth_succ x.y x.m h1
      dsimp only
      omega
    · rename_i hlt hm
      have hm12 : x.m = 12 := by omega
      have hb := daysBeforeMonth_twelve x.y
      have hl := leapCount_succ x.y
      have hb1 : daysBeforeMonth (x.y + 1) 1 = 0 := rfl
      have hd : x.d = 31 := by
        have : daysInMonth x.y x.m = 31 := by
          rw [hm12]; unfold daysInMonth; simp
        omega
      dsimp only
      rw [hm12]
      cases hL : isLeap x.y <;> simp only [hL] at hb hl <;> omega

theorem addDays_spec (n : ℕ) :
    ∀ x : SimDate, ValidDate x →
      toDays (addDays n x) = toDays x + n ∧ ValidDate (addDays n x) := by
  induction n with
  | zero => intro x hx; exact ⟨rfl, hx⟩
  | succ k ih =>
    intro x hx
    have hv := nextDay_valid x hx
    have ht := toDays_nextDay x hx
    obtain ⟨ih1, ih2⟩ := ih (nextDay x) hv
    refine ⟨?_, ih2⟩
    show toDays (addDays k (nextDay x)) = _
    omega

theorem addMonthJS_spec (x : SimDate) (hx : ValidDate x) :
    toDays (addMonthJS x) = toDays x + daysInMonth x.y x.m ∧
      ValidDate (addMonthJS x) := by
  obtain ⟨h1, h2, h3, h4⟩ := hx
  by_cases hm : x.m = 12
  · have hL1 : daysInMonth (x.y + 1) 1 = 31 := by unfold daysInMonth; simp
    have hL12 : daysInMonth x.y 12 = 31 := by unfold daysInMonth; simp
    rw [hm] at h4
    have hb := daysBeforeMonth_twelve x.y
    have hl := leapCount_succ x.y
    have hb1 : daysBeforeMonth (x.y + 1) 1 = 0 := rfl
    simp only [addMonthJS, hm]
    simp only [if_true, reduceIte]
    rw [if_pos (by omega : x.d ≤ daysInMonth (x.y + 1) 1)]
    constructor
    · unfold toDays
      dsimp only
      rw [hm]
      cases hL : isLeap x.y <;> simp only [hL] at hb hl <;> omega
    · unfold ValidDate
      dsimp only
      omega
  · have hb := daysBeforeMonth_succ x.y x.m h1
    simp only [addMonthJS, hm, if_false, if_neg hm]
    by_cases hd : x.d ≤ daysInMonth x.y (x.m + 1)
    · rw [if_pos hd]
      constructor
      · unfold toDays
        dsimp only
        omega
      · unfold ValidDate
        dsimp only
        omega
    · rw [if_neg hd]
      have hle31 : daysInMonth x.y x.m ≤ 31 := daysInMonth_le _ _
      have hge28 : 28 ≤ daysInMonth x.y (x.m + 1) := daysInMonth_ge _ _
      by_cases hm11 : x.m + 1 = 12
      · exfalso
        have : daysInMonth x.y (x.m + 1) = 31 := by
          rw [hm11]; unfold daysInMonth; simp
        omega
      · rw [if_neg hm11]
        have hb2 := daysBeforeMonth_succ x.y (x.m + 1) (by omega)
        have hge28b := daysInMonth_ge x.y (x.m + 1 + 1)
        constructor
        · unfold toDays
          dsimp only
          omega
        · unfold ValidDate
          dsimp only
          omega

theorem advanceDate_invalid (frequency : String)
    (h : ¬ validCadence frequency) (x : SimDate) :
    advanceDate frequency x = x := by
  unfold validCadence at h
  push_neg at h
  obtain ⟨n1, n2, n3, n4⟩ := h
  unfold advanceDate
  rw [if_neg n1, if_neg n2, if_neg n3, if_neg n4]

theorem advanceDate_daily (x : SimDate) :
    advanceDate "daily" x = addDays 1 x := by
  unfold advanceDate
  rw [if_pos rfl]

theorem advanceDate_weekly (x : SimDate) :
    advanceDate "weekly" x = addDays 7 x := by
  unfold advanceDate
  rw [if_neg (show ¬("weekly" = "daily") by decide), if_pos rfl]

theorem advanceDate_biweekly (x : SimDate) :
    advanceDate "biweekly" x = addDays 14 x := by
  unfold advanceDate
  rw [if_neg (show ¬("biweekly" = "daily") by decide),
    if_neg (show ¬("biweekly" = "weekly") by decide), if_pos rfl]

theorem advanceDate_monthly (x : SimDate) :
    advanceDate "monthly" x = addMonthJS x := by
  unfold advanceDate
  rw [if_neg (show ¬("monthly" = "daily") by decide),
    if_neg (show ¬("monthly" = "weekly") by decide),
    if_neg (show ¬("monthly" = "biweekly") by decide), if_pos rfl]

theorem advanceDate_spec (frequency : String) (h : validCadence frequency)
    (x : SimDate) (hx : ValidDate x) :
    toDays (advanceDate frequency x) = toDays x + stepOf frequency x ∧
      ValidDate (advanceDate frequency x) ∧ 0 < stepOf frequency x := by
  have hd := addDays_spec 1 x hx
  have hw := addDays_spec 7 x hx
  have hb := addDays_spec 14 x hx
  have hmo := addMonthJS_spec x hx
  have hge := daysInMonth_ge x.y x.m
  rcases h with h | h | h | h
  · subst h
    rw [advanceDate_daily, show stepOf "daily" x = 1 from rfl]
    exact ⟨hd.1, hd.2, by omega⟩
  · subst h
    rw [advanceDate_weekly, show stepOf "weekly" x = 7 from rfl]
    exact ⟨hw.1, hw.2, by omega⟩
  · subst h
    rw [advanceDate_biweekly, show stepOf "biweekly" x = 14 from rfl]
    exact ⟨hb.1, hb.2, by omega⟩
  · subst h
    rw [advanceDate_monthly,
      show stepOf "monthly" x = daysInMonth x.y x.m from rfl]
    exact ⟨hmo.1, hmo.2, by omega⟩

theorem genDatesFuel_le_of_ne_nil (fuel : ℕ) (cur endD : SimDate)
    (frequency : String) (l : List SimDate)
    (h : genDatesFuel fuel cur endD frequency = some l) (hne : l ≠ []) :
    toDays cur ≤ toDays endD := by
  cases fuel with
  | zero => simp [genDatesFuel] at h
  | succ k =>
    unfold genDatesFuel at h
    by_cases hc : toDays cur ≤ toDays endD
    · exact hc
    · rw [if_neg hc] at h
      simp only [Option.some.injEq] at h
      exact absurd h.symm hne

theorem genDatesFuel_chain (frequency : String) (hf : validCadence frequency)
    (endD : SimDate) :
    ∀ (fuel : ℕ) (cur : SimDate) (l : List SimDate), ValidDate cur →
      genDatesFuel fuel cur endD frequency = some l →
      (toDays cur ≤ toDays endD → l.head? = some cur) ∧
      l.Chain' (fun a b => toDays b = toDays a + stepOf frequency a) ∧
      (∀ a ∈ l, ValidDate a) := by
  intro fuel
  induction fuel with
  | zero => intro cur l hv h; simp [genDatesFuel] at h
  | succ k ih =>
    intro cur l hv h
    unfold genDatesFuel at h
    by_cases hc : toDays cur ≤ toDays endD
    · rw [if_pos hc] at h
      cases hrec : genDatesFuel k (advanceDate frequency cur) endD frequency
        with
      | none => rw [hrec] at h; simp at h
      | some t =>
        rw [hrec] at h
        simp only [Option.map_some', Option.some.injEq] at h
        obtain ⟨hstep, hvadv, hpos⟩ := advanceDate_spec frequency hf cur hv
        obtain ⟨ih1, ih2, ih3⟩ := ih (advanceDate frequency cur) t hvadv hrec
        subst h
        refine ⟨fun _ => rfl, ?_, ?_⟩
        · cases t with
          | nil => simp
          | cons b t2 =>
            have hleb := genDatesFuel_le_of_ne_nil k
              (advanceDate frequency cur) endD frequency (b :: t2) hrec
              (by simp)
            have hhead := ih1 hleb
            simp only [List.head?_cons, Option.some.injEq] at hhead
            rw [List.chain'_cons]
            exact ⟨by rw [← hhead] at hstep; exact hstep, ih2⟩
        · intro a ha
          rcases List.mem_cons.mp ha with ha | ha
          · subst ha; exact hv
          · exact ih3 a ha
    · rw [if_neg hc] at h
      simp only [Option.some.injEq] at h
      subst h
      exact ⟨fun hcon => absurd hcon hc, by simp, by simp⟩

theorem runSim_nil (cp : Option ℚ) (tc ti : ℚ) :
    runSim cp [] tc ti = ([], tc, ti) := rfl

theorem runSim_cons (cp : Option ℚ) (inv : Investment)
    (rest : List Investment) (tc ti : ℚ) :
    runSim cp (inv :: rest) tc ti =
      ({ inv with
          value := cp.map (fun c => (tc + inv.coins) * c),
          ret := cp.map (fun c =>
            (tc + inv.coins) * c - (ti + inv.amount)) } ::
        (runSim cp rest (tc + inv.coins) (ti + inv.amount)).1,
       (runSim cp rest (tc + inv.coins) (ti + inv.amount)).2) := rfl

theorem runSim_length (cp : Option ℚ) :
    ∀ (l : List Investment) (tc ti : ℚ),
      ((runSim cp l tc ti).1).length = l.length := by
  intro l
  induction l with
  | nil => intro tc ti; rfl
  | cons inv rest ih =>
    intro tc ti
    rw [runSim_cons]
    simp [ih]

theorem runSim_totalCoins (cp : Option ℚ) :
    ∀ (l : List Investment) (tc ti : ℚ),
      (runSim cp l tc ti).2.1 = tc + (l.map (fun i => i.coins)).sum := by
  intro l
  induction l with
  | nil => intro tc ti; simp [runSim_nil]
  | cons inv rest ih =>
    intro tc ti
    rw [runSim_cons]
    simp only [List.map_cons, List.sum_cons]
    rw [ih]
    ring

theorem runSim_totalInvested (cp : Option ℚ) :
    ∀ (l : List Investment) (tc ti : ℚ),
      (runSim cp l tc ti).2.2 = ti + (l.map (fun i => i.amount)).sum := by
  intro l
  induction l with
  | nil => intro tc ti; simp [runSim_nil]
  | cons inv rest ih =>
    intro tc ti
    rw [runSim_cons]
    simp only [List.map_cons, List.sum_cons]
    rw [ih]
    ring

theorem runSim_mem_core (cp : Option ℚ) :
    ∀ (l : List Investment) (tc ti : ℚ) (inv : Investment),
      inv ∈ (runSim cp l tc ti).1 →
      ∃ inv0 ∈ l, inv0.date = inv.date ∧ inv0.amount = inv.amount ∧
        inv0.price = inv.price ∧ inv0.coins = inv.coins := by
  intro l
  induction l with
  | nil => intro tc ti inv h; simp [runSim_nil] at h
  | cons j rest ih =>
    intro tc ti inv h
    rw [runSim_cons] at h
    rcases List.mem_cons.mp h with h | h
    · exact ⟨j, List.mem_cons_self j rest, by
        rw [h]; exact ⟨rfl, rfl, rfl, rfl⟩⟩
    · obtain ⟨inv0, hm, hc⟩ := ih (tc + j.coins) (ti + j.amount) inv h
      exact ⟨inv0, List.mem_cons_of_mem j hm, hc⟩

theorem runSim_get_value (cp : Option ℚ) :
    ∀ (l : List Investment) (tc ti : ℚ) (i : ℕ) (v : Investment),
      ((runSim cp l tc ti).1).get? i = some v →
      v.value = cp.map (fun c =>
        (tc + ((l.take (i + 1)).map (fun j => j.coins)).sum) * c) := by
  intro l
  induction l with
  | nil => intro tc ti i v h; rw [runSim_nil] at h; simp at h
  | cons inv rest ih =>
    intro tc ti i v h
    rw [runSim_cons] at h
    cases i with
    | zero =>
      rw [List.get?_cons_zero] at h
      injection h with h
      subst h
      simp
    | succ k =>
      rw [List.get?_cons_succ] at h
      have hv := ih (tc + inv.coins) (ti + inv.amount) k v h
      rw [hv]
      cases cp with
      | none => rfl
      | some c =>
        simp only [Option.map_some', Option.some.injEq,
          List.take_succ_cons, List.map_cons, List.sum_cons]
        ring

theorem runSim_get_ret (cp : Option ℚ) :
    ∀ (l : List Investment) (tc ti : ℚ) (i : ℕ) (v : Investment),
      ((runSim cp l tc ti).1).get? i = some v →
      v.ret = cp.map (fun c =>
        (tc + ((l.take (i + 1)).map (fun j => j.coins)).sum) * c -
        (ti + ((l.take (i + 1)).map (fun j => j.amount)).sum)) := by
  intro l
  induction l with
  | nil => intro tc ti i v h; rw [runSim_nil] at h; simp at h
  | cons inv rest ih =>
    intro tc ti i v h
    rw [runSim_cons] at h
    cases i with
    | zero =>
      rw [List.get?_cons_zero] at h
      injection h with h
      subst h
      simp
    | succ k =>
      rw [List.get?_cons_succ] at h
      have hv := ih (tc + inv.coins) (ti + inv.amount) k v h
      rw [hv]
      cases cp with
      | none => rfl
      | some c =>
        simp only [Option.map_some', Option.some.injEq,
          List.take_succ_cons, List.map_cons, List.sum_cons]
        ring

theorem runSim_getLast (cp : Option ℚ) :
    ∀ (l : List Investment) (tc ti : ℚ) (inv : Investment),
      ((runSim cp l tc ti).1).getLast? = some inv →
      inv.value = cp.map (fun c => (runSim cp l tc ti).2.1 * c) ∧
      inv.ret = cp.map (fun c =>
        (runSim cp l tc ti).2.1 * c - (runSim cp l tc ti).2.2) := by
  intro l
  induction l with
  | nil => intro tc ti inv h; rw [runSim_nil] at h; simp at h
  | cons j rest ih =>
    intro tc ti inv h
    rw [runSim_cons] at h ⊢
    cases hrest : (runSim cp rest (tc + j.coins) (ti + j.amount)).1 with
    | nil =>
      rw [hrest] at h
      simp only [List.getLast?_singleton, Option.some.injEq] at h
      have hrn : rest = [] := by
        have := runSim_length cp rest (tc + j.coins) (ti + j.amount)
        rw [hrest] at this
        exact List.eq_nil_of_length_eq_zero this.symm
      subst hrn
      rw [runSim_nil]
      subst h
      exact ⟨rfl, rfl⟩
    | cons b t =>
      rw [hrest] at h
      rw [List.getLast?_cons_cons] at h
      rw [← hrest] at h
      exact ih (tc + j.coins) (ti + j.amount) inv h

theorem mkInvestment_some_spec (amount : ℚ) (priceData : PriceSeries)
    (date : SimDate) (inv : Investment)
    (h : mkInvestment amount priceData date = some inv) :
    inv.date = date ∧ inv.amount = amount ∧
    plookup priceData date = some inv.price ∧ inv.price ≠ 0 ∧
    inv.coins = amount / inv.price := by
  unfold mkInvestment at h
  cases hl : plookup priceData date with
  | none => rw [hl, Option.none_bind] at h; exact absurd h (by simp)
  | some price =>
    rw [hl, Option.some_bind] at h
    by_cases hp : price = 0
    · rw [if_pos hp] at h; exact absurd h (by simp)
    · rw [if_neg hp] at h
      injection h with h
      subst h
      exact ⟨rfl, rfl, rfl, hp, rfl⟩

theorem mkInvestment_of_lookup (amount : ℚ) (priceData : PriceSeries)
    (date : SimDate) (price : ℚ)
    (hl : plookup priceData date = some price) (hp : price ≠ 0) :
    mkInvestment amount priceData date =
      some { date := date, amount := amount, price := price,
             coins := amount / price, value := some amount,
             ret := some 0 } := by
  unfold mkInvestment
  rw [hl, Option.some_bind, if_neg hp]

theorem mkInvestment_none_of_lookup_none (amount : ℚ)
    (priceData : PriceSeries) (date : SimDate)
    (hl : plookup priceData date = none) :
    mkInvestment amount priceData date = none := by
  unfold mkInvestment
  rw [hl, Option.none_bind]

theorem plookup_removeEntry_ne (priceData : PriceSeries) (d e : SimDate)
    (h : e ≠ d) : plookup (removeEntry priceData d) e =
      plookup priceData e := by
  induction priceData with
  | nil => rfl
  | cons kv rest ih =>
    unfold removeEntry at ih ⊢
    rw [List.filter_cons]
    by_cases hk : kv.1 = d
    · have hbd : (!(kv.1 == d)) = false := by simp [hk]
      rw [hbd]
      rw [if_neg (by decide : ¬ (false = true))]
      rw [ih]
      have hke : (kv.1 == e) = false := by
        simp only [beq_eq_false_iff_ne, ne_eq, hk]
        exact fun hde => h hde.symm
      unfold plookup
      rw [List.find?_cons, hke]
    · have hbd : (!(kv.1 == d)) = true := by simp [hk]
      rw [hbd]
      rw [if_pos rfl]
      unfold plookup
      rw [List.find?_cons, List.find?_cons]
      cases hke : (kv.1 == e) with
      | true => rfl
      | false => exact ih

theorem plookup_removeEntry_self (priceData : PriceSeries) (d : SimDate) :
    plookup (removeEntry priceData d) d = none := by
  unfold plookup
  have hf : List.find? (fun p => p.1 == d) (removeEntry priceData d) =
      none := by
    rw [List.find?_eq_none]
    intro kv hm
    have hm2 := List.of_mem_filter hm
    simp only [Bool.not_eq_true'] at hm2
    simp [hm2]
  rw [hf]
  rfl

theorem mkInvestment_removeEntry_ne (amount : ℚ)
    (priceData : PriceSeries) (d e : SimDate) (h : e ≠ d) :
    mkInvestment amount (removeEntry priceData d) e =
      mkInvestment amount priceData e := by
  unfold mkInvestment
  rw [plookup_removeEntry_ne priceData d e h]

theorem calculateReturns_investments (dates : List SimDate) (amount : ℚ)
    (priceData : PriceSeries) :
    (calculateReturns dates amount priceData).investments =
      (runSim (priceData.getLast?.map (fun p => p.2))
        (dates.filterMap (mkInvestment amount priceData)) 0 0).1 := rfl

theorem calculateReturns_totalCoins_def (dates : List SimDate) (amount : ℚ)
    (priceData : PriceSeries) :
    (calculateReturns dates amount priceData).summary.totalCoins =
      (runSim (priceData.getLast?.map (fun p => p.2))
        (dates.filterMap (mkInvestment amount priceData)) 0 0).2.1 := rfl

theorem calculateReturns_totalInvested_def (dates : List SimDate)
    (amount : ℚ) (priceData : PriceSeries) :
    (calculateReturns dates amount priceData).summary.totalInvested =
      (runSim (priceData.getLast?.map (fun p => p.2))
        (dates.filterMap (mkInvestment amount priceData)) 0 0).2.2 := rfl

theorem calculateReturns_currentValue_def (dates : List SimDate)
    (amount : ℚ) (priceData : PriceSeries) :
    (calculateReturns dates amount priceData).summary.currentValue =
      (priceData.getLast?.map (fun p => p.2)).map (fun c =>
        (runSim (priceData.getLast?.map (fun p => p.2))
          (dates.filterMap (mkInvestment amount priceData)) 0 0).2.1 * c) :=
  rfl

theorem calculateReturns_totalReturn_def (dates : List SimDate)
    (amount : ℚ) (priceData : PriceSeries) :
    (calculateReturns dates amount priceData).summary.totalReturn =
      (priceData.getLast?.map (fun p => p.2)).map (fun c =>
        (runSim (priceData.getLast?.map (fun p => p.2))
          (dates.filterMap (mkInvestment amount priceData)) 0 0).2.1 * c -
        (runSim (priceData.getLast?.map (fun p => p.2))
          (dates.filterMap (mkInvestment amount priceData)) 0 0).2.2) :=
  rfl

theorem filterMap_amount (dates : List SimDate) (amount : ℚ)
    (priceData : PriceSeries) :
    ∀ inv ∈ dates.filterMap (mkInvestment amount priceData),
      inv.amount = amount := by
  intro inv hm
  obtain ⟨d, _, hmk⟩ := List.mem_filterMap.mp hm
  exact (mkInvestment_some_spec amount priceData d inv hmk).2.1

theorem sum_map_amount (a : ℚ) :
    ∀ (l : List Investment), (∀ x ∈ l, x.amount = a) →
      (l.map (fun i => i.amount)).sum = (l.length : ℚ) * a := by
  intro l
  induction l with
  | nil => intro _; simp
  | cons x rest ih =>
    intro h
    simp only [List.map_cons, List.sum_cons, List.length_cons]
    rw [h x (List.mem_cons_self x rest),
      ih (fun y hy => h y (List.mem_cons_of_mem x hy))]
    push_cast
    ring

theorem calculateReturns_totalInvested_eq (dates : List SimDate)
    (amount : ℚ) (priceData : PriceSeries) :
    (calculateReturns dates amount priceData).summary.totalInvested =
      ((calculateReturns dates amount priceData).investments.length : ℚ) *
        amount := by
  rw [calculateReturns_totalInvested_def, calculateReturns_investments,
    runSim_length, runSim_totalInvested]
  rw [sum_map_amount amount _ (filterMap_amount dates amount priceData)]
  ring

theorem chain_le_getLast :
    ∀ (l : PriceSeries) (kv : SimDate × ℚ), l.getLast? = some kv →
      l.Chain' (fun a b => toDays a.1 < toDays b.1) →
      ∀ p ∈ l, toDays p.1 ≤ toDays kv.1 := by
  intro l
  induction l with
  | nil => intro kv h _ p hp; simp at hp
  | cons a t ih =>
    intro kv h hc p hp
    cases t with
    | nil =>
      simp only [List.getLast?_singleton, Option.some.injEq] at h
      subst h
      rcases List.mem_singleton.mp hp with rfl
      exact le_refl _
    | cons b t2 =>
      rw [List.getLast?_cons_cons] at h
      have hab := (List.chain'_cons.mp hc).1
      have hc2 := (List.chain'_cons.mp hc).2
      rcases List.mem_cons.mp hp with rfl | hp2
      · have hb := ih kv h hc2 b (List.mem_cons_self b t2)
        omega
      · exact ih kv h hc2 p hp2

theorem mkInvestment_ne_none (amount : ℚ) (priceData : PriceSeries)
    (d : SimDate) (h1 : plookup priceData d ≠ none)
    (h2 : plookup priceData d ≠ some 0) :
    mkInvestment amount priceData d ≠ none := by
  cases hl : plookup priceData d with
  | none => exact absurd hl h1
  | some p =>
    have hp : p ≠ 0 := by
      intro h0
      exact h2 (h0 ▸ hl)
    rw [mkInvestment_of_lookup amount priceData d p hl hp]
    simp

theorem filterMap_length_of_present (amount : ℚ)
    (priceData : PriceSeries) :
    ∀ (dates : List SimDate),
      (∀ d ∈ dates, plookup priceData d ≠ none ∧
        plookup priceData d ≠ some 0) →
      (dates.filterMap (mkInvestment amount priceData)).length =
        dates.length := by
  intro dates
  induction dates with
  | nil => intro _; rfl
  | cons d rest ih =>
    intro h
    obtain ⟨h1, h2⟩ := h d (List.mem_cons_self d rest)
    cases hmk : mkInvestment amount priceData d with
    | none => exact absurd hmk (mkInvestment_ne_none amount priceData d h1 h2)
    | some inv =>
      rw [List.filterMap_cons_some hmk]
      simp only [List.length_cons]
      rw [ih (fun e he => h e (List.mem_cons_of_mem d he))]

theorem filterMap_length_remove (amount : ℚ) (priceData : PriceSeries)
    (d : SimDate) (p : ℚ) (hd : plookup priceData d = some p)
    (hp : p ≠ 0) :
    ∀ (dates : List SimDate), dates.count d = 1 →
      (dates.filterMap (mkInvestment amount priceData)).length =
        (dates.filterMap
          (mkInvestment amount (removeEntry priceData d))).length + 1 := by
  intro dates
  induction dates with
  | nil => intro h; simp at h
  | cons e rest ih =>
    intro hc
    by_cases he : e = d
    · subst he
      rw [List.count_cons_self] at hc
      have hr0 : rest.count e = 0 := by omega
      have hnr : e ∉ rest := List.count_eq_zero.mp hr0
      have heq : rest.filterMap (mkInvestment amount
          (removeEntry priceData e)) =
          rest.filterMap (mkInvestment amount priceData) := by
        apply List.filterMap_congr
        intro x hx
        have hxe : x ≠ e := fun hxeq => hnr (hxeq ▸ hx)
        exact mkInvestment_removeEntry_ne amount priceData e x hxe
      rw [List.filterMap_cons_some
        (mkInvestment_of_lookup amount priceData e p hd hp)]
      rw [List.filterMap_cons_none
        (mkInvestment_none_of_lookup_none amount _ e
          (plookup_removeEntry_self priceData e))]
      rw [heq]
      simp
    · have hc2 : rest.count d = 1 := by
        rw [List.count_cons] at hc
        have hbe : (e == d) = false := by
          simp only [beq_eq_false_iff_ne, ne_eq]
          exact he
        rw [hbe] at hc
        simpa using hc
      have hme : mkInvestment amount (removeEntry priceData d) e =
          mkInvestment amount priceData e :=
        mkInvestment_removeEntry_ne amount priceData d e he
      cases hmk : mkInvestment amount priceData e with
      | none =>
        rw [List.filterMap_cons_none hmk,
          List.filterMap_cons_none (hme.trans hmk)]
        exact ih hc2
      | some inv =>
        rw [List.filterMap_cons_some hmk,
          List.filterMap_cons_some (hme.trans hmk)]
        simp only [List.length_cons]
        rw [ih hc2]

/-- C1: the claim states that a monthly schedule whose running date has a
day-of-month that does not exist in the next month is clamped to the last
valid day of that month (so a start of 2023-01-31 must be followed by
2023-02-28).  The code instead relies on `setMonth` overflow: from
2023-01-31 the next generated date is 2023-03-03, skipping February
entirely — the date overflows into the following month. -/
theorem generateInvestmentDates_monthly_overflows :
    generateInvestmentDates ⟨2023, 1, 31⟩ ⟨2023, 4, 1⟩ "monthly" =
      some [⟨2023, 1, 31⟩, ⟨2023, 3, 3⟩] ∧
    (⟨2023, 3, 3⟩ : SimDate) ≠ ⟨2023, 2, 28⟩ := by
  constructor
  · decide
  · decide

/-- C3: the claim states that an unrecognised cadence makes
`generateInvestmentDates` fail with `InvalidCadenceError`.  The code has
no such error: the `switch` has no `default` arm, so the running date
never advances and the `while (currentDate <= endDate)` loop never
terminates — no amount of fuel makes the loop finish. -/
theorem generateInvestmentDates_invalid_cadence_diverges
    (frequency : String) (hf : ¬ validCadence frequency)
    (startDate endDate : SimDate)
    (hle : toDays startDate ≤ toDays endDate) :
    ∀ fuel, genDatesFuel fuel startDate endDate frequency = none := by
  intro fuel
  induction fuel with
  | zero => rfl
  | succ k ih =>
    show (if toDays startDate ≤ toDays endDate then
        (genDatesFuel k (advanceDate frequency startDate) endDate
          frequency).map (startDate :: ·)
      else some []) = none
    rw [if_pos hle, advanceDate_invalid frequency hf startDate, ih]
    rfl

/-- Witness for C3 at a concrete unrecognised cadence. -/
theorem generateInvestmentDates_invalid_cadence_diverges_witness :
    genDatesFuel 100 ⟨2023, 1, 1⟩ ⟨2023, 6, 1⟩ "hourly" = none :=
  generateInvestmentDates_invalid_cadence_diverges "hourly" (by decide)
    ⟨2023, 1, 1⟩ ⟨2023, 6, 1⟩ (by decide) 100

/-- C6: for every recognised cadence and valid `start < end`, any
completed run of the schedule loop yields a list whose first element is
`start`, which is strictly increasing, and whose consecutive gaps equal
the cadence's nominal step — 1, 7 or 14 calendar days, or the length of
the current month (between 28 and 31 days) for the monthly cadence. -/
theorem generateInvestmentDates_schedule_correct
    (frequency : String) (hf : validCadence frequency)
    (startDate endDate : SimDate) (hv : ValidDate startDate)
    (hlt : toDays startDate < toDays endDate)
    (fuel : ℕ) (l : List SimDate)
    (h : genDatesFuel fuel startDate endDate frequency = some l) :
    l.head? = some startDate ∧
    l.Chain' (fun a b => toDays a < toDays b ∧
      toDays b = toDays a + stepOf frequency a) ∧
    (frequency = "monthly" →
      ∀ a ∈ l, 28 ≤ stepOf frequency a ∧ stepOf frequency a ≤ 31) := by
  obtain ⟨h1, h2, h3⟩ :=
    genDatesFuel_chain frequency hf endDate fuel startDate l hv h
  refine ⟨h1 (le_of_lt hlt), ?_, ?_⟩
  · apply List.Chain'.imp ?_ h2
    intro a b hab
    refine ⟨?_, hab⟩
    have hpos : 0 < stepOf frequency a := by
      rcases hf with hf | hf | hf | hf <;> subst hf
      · rw [show stepOf "daily" a = 1 from rfl]; omega
      · rw [show stepOf "weekly" a = 7 from rfl]; omega
      · rw [show stepOf "biweekly" a = 14 from rfl]; omega
      · rw [show stepOf "monthly" a = daysInMonth a.y a.m from rfl]
        have := daysInMonth_ge a.y a.m
        omega
    omega
  · intro hm a _
    subst hm
    rw [show stepOf "monthly" a = daysInMonth a.y a.m from rfl]
    exact ⟨daysInMonth_ge a.y a.m, daysInMonth_le a.y a.m⟩

/-- Witness for C6: a concrete daily run crossing a month boundary. -/
theorem generateInvestmentDates_schedule_correct_witness :
    ([⟨2023, 2, 27⟩, ⟨2023, 2, 28⟩, ⟨2023, 3, 1⟩] :
        List SimDate).head? = some ⟨2023, 2, 27⟩ ∧
    ([⟨2023, 2, 27⟩, ⟨2023, 2, 28⟩, ⟨2023, 3, 1⟩] :
        List SimDate).Chain' (fun a b => toDays a < toDays b ∧
      toDays b = toDays a + stepOf "daily" a) ∧
    ("daily" = "monthly" →
      ∀ a ∈ ([⟨2023, 2, 27⟩, ⟨2023, 2, 28⟩, ⟨2023, 3, 1⟩] :
        List SimDate), 28 ≤ stepOf "daily" a ∧ stepOf "daily" a ≤ 31) :=
  generateInvestmentDates_schedule_correct "daily" (by decide)
    ⟨2023, 2, 27⟩ ⟨2023, 3, 1⟩ (by decide) (by decide) 5
    [⟨2023, 2, 27⟩, ⟨2023, 2, 28⟩, ⟨2023, 3, 1⟩] (by decide)

theorem runSim_map_coins (cp : Option ℚ) :
    ∀ (l : List Investment) (tc ti : ℚ),
      ((runSim cp l tc ti).1).map (fun j => j.coins) =
        l.map (fun j => j.coins) := by
  intro l
  induction l with
  | nil => intro tc ti; rfl
  | cons inv rest ih =>
    intro tc ti
    rw [runSim_cons]
    simp only [List.map_cons]
    rw [ih]

theorem plookup_some_mem (priceData : PriceSeries) (d : SimDate) (p : ℚ)
    (h : plookup priceData d = some p) : ∃ kv ∈ priceData, kv.2 = p := by
  unfold plookup at h
  cases hf : priceData.find? (fun q => q.1 == d) with
  | none => rw [hf] at h; simp at h
  | some kv =>
    rw [hf] at h
    simp only [Option.map_some', Option.some.injEq] at h
    exact ⟨kv, List.mem_of_find?_eq_some hf, h⟩

/-- C2: the claim states that when every scheduled date is absent from
the price series `calculateReturns` fails with `NoEventsGeneratedError`
rather than producing an `Infinity`/`NaN` summary.  The code defines no
such error anywhere and returns normally on such input: the event list
is empty and the summary's `averagePrice` (`0 / 0`) and
`returnPercentage` are NaN — encoded `none` in the embedding. -/
theorem calculateReturns_all_dates_missing_returns_nan :
    (calculateReturns [⟨2023, 1, 2⟩] 100
        [(⟨2023, 1, 1⟩, 50)]).investments = [] ∧
    (calculateReturns [⟨2023, 1, 2⟩] 100
        [(⟨2023, 1, 1⟩, 50)]).summary.averagePrice = none ∧
    (calculateReturns [⟨2023, 1, 2⟩] 100
        [(⟨2023, 1, 1⟩, 50)]).summary.returnPercentage = none := by
  refine ⟨by decide, by decide, by decide⟩

set_option maxRecDepth 4000 in
/-- C4 counterexample: with a negative stored price the code still
produces an event — the `if (!price)` test only rejects an absent or
zero price — and its unitsAcquired is negative: `100 / (-50) = -2`. -/
theorem calculateReturns_negative_price_negative_units :
    ¬ (∀ inv ∈ (calculateReturns [⟨2023, 1, 1⟩] 100
        [(⟨2023, 1, 1⟩, -50)]).investments, 0 < inv.coins) := by
  with_unfolding_all decide

/-- C4 amended: an event is retained exactly when the date's price is
present and nonzero (`!price`), with `coins = amount / price`; when the
contribution is positive and every stored price is positive — as for
real market data past input validation — every retained event has
strictly positive unitsAcquired. -/
theorem calculateReturns_units_positive
    (dates : List SimDate) (amount : ℚ) (priceData : PriceSeries)
    (hamt : 0 < amount) (hpos : ∀ kv ∈ priceData, 0 < kv.2) :
    ∀ inv ∈ (calculateReturns dates amount priceData).investments,
      plookup priceData inv.date = some inv.price ∧ inv.price ≠ 0 ∧
      inv.coins = amount / inv.price ∧ 0 < inv.coins := by
  intro inv hm
  rw [calculateReturns_investments] at hm
  obtain ⟨inv0, hm0, hdate, hamount, hprice, hcoins⟩ :=
    runSim_mem_core _ _ _ _ inv hm
  obtain ⟨d, _, hmk⟩ := List.mem_filterMap.mp hm0
  obtain ⟨hd0, ha0, hl0, hp0, hc0⟩ :=
    mkInvestment_some_spec amount priceData d inv0 hmk
  have hL : plookup priceData inv.date = some inv.price := by
    rw [← hdate, hd0, hl0, hprice]
  have hppos : 0 < inv.price := by
    obtain ⟨kv, hkv, hkv2⟩ :=
      plookup_some_mem priceData inv.date inv.price hL
    rw [← hkv2]
    exact hpos kv hkv
  refine ⟨hL, by rw [← hprice]; exact hp0, ?_, ?_⟩
  · rw [← hcoins, hc0, hprice]
  · rw [← hcoins, hc0, hprice]
    exact div_pos hamt hppos

set_option maxRecDepth 4000 in
/-- Witness for C4's amended statement at a concrete input. -/
theorem calculateReturns_units_positive_witness :
    0 < (Investment.mk ⟨2023, 1, 1⟩ 100 50 2 (some 100) (some 0)).coins :=
  (calculateReturns_units_positive [⟨2023, 1, 1⟩] 100
      [(⟨2023, 1, 1⟩, 50)] (by norm_num) (by decide)
      (Investment.mk ⟨2023, 1, 1⟩ 100 50 2 (some 100) (some 0))
      (by with_unfolding_all decide)).2.2.2

/-- C5: with a chronologically ordered, non-empty price series, the
i-th retained event's `value` equals the running sum of unitsAcquired of
events 1..i times the price of the chronologically last key of the
series (not the per-event purchase price), and its `return` equals that
value minus i times the contribution. -/
theorem calculateReturns_cumulative_value
    (dates : List SimDate) (amount : ℚ) (priceData : PriceSeries)
    (kv : SimDate × ℚ) (hlast : priceData.getLast? = some kv)
    (hsorted : priceData.Chain' (fun a b => toDays a.1 < toDays b.1)) :
    (∀ q ∈ priceData, toDays q.1 ≤ toDays kv.1) ∧
    ∀ (i : ℕ) (inv : Investment),
      ((calculateReturns dates amount priceData).investments).get? i =
        some inv →
      inv.value = some
        ((((calculateReturns dates amount priceData).investments.take
            (i + 1)).map (fun j => j.coins)).sum * kv.2) ∧
      inv.ret = some
        ((((calculateReturns dates amount priceData).investments.take
            (i + 1)).map (fun j => j.coins)).sum * kv.2 -
          ((i : ℚ) + 1) * amount) := by
  refine ⟨chain_le_getLast priceData kv hlast hsorted, ?_⟩
  intro i inv hget
  rw [calculateReturns_investments] at hget ⊢
  have hcp : priceData.getLast?.map (fun p => p.2) = some kv.2 := by
    rw [hlast]; rfl
  have hval := runSim_get_value (priceData.getLast?.map (fun p => p.2))
    (dates.filterMap (mkInvestment amount priceData)) 0 0 i inv hget
  have hret := runSim_get_ret (priceData.getLast?.map (fun p => p.2))
    (dates.filterMap (mkInvestment amount priceData)) 0 0 i inv hget
  rw [hcp] at hval hret
  simp only [Option.map_some'] at hval hret
  have hmc : (((runSim (priceData.getLast?.map (fun p => p.2))
      (dates.filterMap (mkInvestment amount priceData)) 0 0).1.take
        (i + 1)).map (fun j => j.coins)).sum =
      (((dates.filterMap (mkInvestment amount priceData)).take
        (i + 1)).map (fun j => j.coins)).sum := by
    rw [List.map_take, runSim_map_coins, ← List.map_take]
  have hlen : i < (dates.filterMap (mkInvestment amount priceData)).length := by
    obtain ⟨h1, _⟩ := List.get?_eq_some.mp hget
    rwa [runSim_length] at h1
  have hamts : (((dates.filterMap (mkInvestment amount priceData)).take
      (i + 1)).map (fun j => j.amount)).sum = ((i : ℚ) + 1) * amount := by
    rw [sum_map_amount amount _ (fun x hx =>
      filterMap_amount dates amount priceData x (List.mem_of_mem_take hx))]
    rw [List.length_take]
    have hmin : min (i + 1)
        (dates.filterMap (mkInvestment amount priceData)).length =
        i + 1 := by omega
    rw [hmin]
    push_cast
    ring
  constructor
  · rw [hval, hmc, zero_add]
  · rw [hret, hmc, hamts, zero_add, zero_add]

set_option maxRecDepth 8000 in
/-- Witness for C5 at a concrete two-event run (second event, i = 1). -/
theorem calculateReturns_cumulative_value_witness :
    (Investment.mk ⟨2023, 1, 2⟩ 100 40 (5 / 2) (some 180)
        (some (-20))).value = some
      ((((calculateReturns [⟨2023, 1, 1⟩, ⟨2023, 1, 2⟩] 100
          [(⟨2023, 1, 1⟩, 50), (⟨2023, 1, 2⟩, 40)]).investments.take
            (1 + 1)).map (fun j => j.coins)).sum *
        ((⟨2023, 1, 2⟩, (40 : ℚ)) : SimDate × ℚ).2) :=
  ((calculateReturns_cumulative_value [⟨2023, 1, 1⟩, ⟨2023, 1, 2⟩] 100
      [(⟨2023, 1, 1⟩, 50), (⟨2023, 1, 2⟩, 40)] (⟨2023, 1, 2⟩, 40) rfl
      (List.chain'_cons.mpr ⟨by decide, List.chain'_singleton _⟩)).2 1
    (Investment.mk ⟨2023, 1, 2⟩ 100 40 (5 / 2) (some 180) (some (-20)))
    (by with_unfolding_all decide)).1

/-- C7 counterexample: a date whose price entry exists but stores the
value `0` is dropped by the `if (!price)` test, so a complete series can
still yield fewer events than dates. -/
theorem calculateReturns_zero_price_entry_dropped :
    (calculateReturns [⟨2023, 1, 1⟩] 100
        [(⟨2023, 1, 1⟩, 0)]).investments.length ≠
      ([⟨2023, 1, 1⟩] : List SimDate).length := by
  decide

/-- C7 amended: when every scheduled date has a price entry with a
nonzero price, exactly one event is retained per date; a date with no
entry never appears among the events and consumes no contribution
(`totalInvested` is exactly the retained event count times the
contribution), and every retained event carries the price looked up for
its own date — no placeholder is substituted. -/
theorem calculateReturns_exact_skip
    (dates : List SimDate) (amount : ℚ) (priceData : PriceSeries) :
    ((∀ d ∈ dates, plookup priceData d ≠ none ∧
        plookup priceData d ≠ some 0) →
      (calculateReturns dates amount priceData).investments.length =
        dates.length) ∧
    (∀ d : SimDate, plookup priceData d = none →
      ∀ inv ∈ (calculateReturns dates amount priceData).investments,
        inv.date ≠ d) ∧
    ((calculateReturns dates amount priceData).summary.totalInvested =
      ((calculateReturns dates amount priceData).investments.length : ℚ) *
        amount) ∧
    (∀ inv ∈ (calculateReturns dates amount priceData).investments,
      plookup priceData inv.date = some inv.price ∧ inv.price ≠ 0) := by
  refine ⟨?_, ?_, calculateReturns_totalInvested_eq dates amount priceData,
    ?_⟩
  · intro h
    rw [calculateReturns_investments, runSim_length]
    exact filterMap_length_of_present amount priceData dates h
  · intro d hnone inv hm hcontra
    rw [calculateReturns_investments] at hm
    obtain ⟨inv0, hm0, hdate, _, hprice, _⟩ :=
      runSim_mem_core _ _ _ _ inv hm
    obtain ⟨e, _, hmk⟩ := List.mem_filterMap.mp hm0
    obtain ⟨hd0, _, hl0, _, _⟩ :=
      mkInvestment_some_spec amount priceData e inv0 hmk
    have hde : e = d := by rw [← hd0, hdate, hcontra]
    rw [hde] at hl0
    rw [hnone] at hl0
    exact Option.noConfusion hl0
  · intro inv hm
    rw [calculateReturns_investments] at hm
    obtain ⟨inv0, hm0, hdate, _, hprice, _⟩ :=
      runSim_mem_core _ _ _ _ inv hm
    obtain ⟨e, _, hmk⟩ := List.mem_filterMap.mp hm0
    obtain ⟨hd0, _, hl0, hp0, _⟩ :=
      mkInvestment_some_spec amount priceData e inv0 hmk
    constructor
    · rw [← hdate, hd0, hl0, hprice]
    · rw [← hprice]
      exact hp0

/-- Witness for C7's amended statement: a complete two-date series
retains exactly two events. -/
theorem calculateReturns_exact_skip_witness :
    (calculateReturns [⟨2023, 1, 1⟩, ⟨2023, 1, 2⟩] 100
        [(⟨2023, 1, 1⟩, 50), (⟨2023, 1, 2⟩, 40)]).investments.length =
      ([⟨2023, 1, 1⟩, ⟨2023, 1, 2⟩] : List SimDate).length :=
  (calculateReturns_exact_skip [⟨2023, 1, 1⟩, ⟨2023, 1, 2⟩] 100
    [(⟨2023, 1, 1⟩, 50), (⟨2023, 1, 2⟩, 40)]).1 (by decide)

/-- C8 counterexample: removing the entry of a scheduled date whose
stored price is `0` changes nothing — the event was already dropped —
so neither `events.length` nor `totalInvested` decreases. -/
theorem calculateReturns_remove_zero_price_entry_no_change :
    (calculateReturns [⟨2023, 1, 1⟩] 100
        [(⟨2023, 1, 1⟩, 0)]).investments.length =
      (calculateReturns [⟨2023, 1, 1⟩] 100
        (removeEntry [(⟨2023, 1, 1⟩, 0)] ⟨2023, 1, 1⟩)).investments.length ∧
    (calculateReturns [⟨2023, 1, 1⟩] 100
        [(⟨2023, 1, 1⟩, 0)]).summary.totalInvested =
      (calculateReturns [⟨2023, 1, 1⟩] 100
        (removeEntry [(⟨2023, 1, 1⟩, 0)] ⟨2023, 1, 1⟩)).summary.totalInvested
    := by
  exact ⟨by decide, by decide⟩

/-- C8 amended: if a scheduled date `d` occurs once in the schedule and
its entry stores a nonzero price, removing that entry decreases
`events.length` by exactly 1 and `totalInvested` by exactly the
contribution. -/
theorem calculateReturns_remove_entry
    (dates : List SimDate) (amount : ℚ) (priceData : PriceSeries)
    (d : SimDate) (p : ℚ) (hd : plookup priceData d = some p)
    (hp : p ≠ 0) (hcount : dates.count d = 1) :
    (calculateReturns dates amount priceData).investments.length =
      (calculateReturns dates amount
        (removeEntry priceData d)).investments.length + 1 ∧
    (calculateReturns dates amount priceData).summary.totalInvested =
      (calculateReturns dates amount
        (removeEntry priceData d)).summary.totalInvested + amount := by
  have hlen : (calculateReturns dates amount priceData).investments.length =
      (calculateReturns dates amount
        (removeEntry priceData d)).investments.length + 1 := by
    rw [calculateReturns_investments, calculateReturns_investments,
      runSim_length, runSim_length]
    exact filterMap_length_remove amount priceData d p hd hp dates hcount
  refine ⟨hlen, ?_⟩
  rw [calculateReturns_totalInvested_eq, calculateReturns_totalInvested_eq,
    hlen]
  push_cast
  ring

/-- Witness for C8's amended statement at a one-date schedule. -/
theorem calculateReturns_remove_entry_witness :
    (calculateReturns [⟨2023, 1, 1⟩] 100
        [(⟨2023, 1, 1⟩, 50)]).investments.length =
      (calculateReturns [⟨2023, 1, 1⟩] 100
        (removeEntry [(⟨2023, 1, 1⟩, 50)] ⟨2023, 1, 1⟩)).investments.length
        + 1 :=
  (calculateReturns_remove_entry [⟨2023, 1, 1⟩] 100 [(⟨2023, 1, 1⟩, 50)]
    ⟨2023, 1, 1⟩ 50 (by decide) (by norm_num) (by decide)).1

/-- C9: `calculateReturns` reads nothing besides its arguments and
mutates only objects it freshly allocates, so it is a pure function:
identical inputs give identical outputs. -/
theorem calculateReturns_deterministic
    (dates₁ dates₂ : List SimDate) (amount₁ amount₂ : ℚ)
    (priceData₁ priceData₂ : PriceSeries)
    (h1 : dates₁ = dates₂) (h2 : amount₁ = amount₂)
    (h3 : priceData₁ = priceData₂) :
    calculateReturns dates₁ amount₁ priceData₁ =
      calculateReturns dates₂ amount₂ priceData₂ := by
  rw [h1, h2, h3]

/-- Witness for C9 at a concrete input. -/
theorem calculateReturns_deterministic_witness :
    calculateReturns [⟨2023, 1, 1⟩] 100 [(⟨2023, 1, 1⟩, 50)] =
      calculateReturns [⟨2023, 1, 1⟩] 100 [(⟨2023, 1, 1⟩, 50)] :=
  calculateReturns_deterministic _ _ _ _ _ _ rfl rfl rfl

/-- C10: the last retained event is consistent with the summary — its
`value` equals `summary.currentValue` (`totalCoins * currentPrice`) and
its `return` equals `summary.totalReturn`. -/
theorem calculateReturns_last_event_matches_summary
    (dates : List SimDate) (amount : ℚ) (priceData : PriceSeries)
    (inv : Investment)
    (h : (calculateReturns dates amount priceData).investments.getLast? =
      some inv) :
    inv.value =
      (calculateReturns dates amount priceData).summary.currentValue ∧
    inv.ret =
      (calculateReturns dates amount priceData).summary.totalReturn := by
  rw [calculateReturns_investments] at h
  have hlast := runSim_getLast (priceData.getLast?.map (fun p => p.2))
    (dates.filterMap (mkInvestment amount priceData)) 0 0 inv h
  rw [calculateReturns_currentValue_def, calculateReturns_totalReturn_def]
  exact hlast

set_option maxRecDepth 8000 in
/-- Witness for C10 at a one-event run. -/
theorem calculateReturns_last_event_matches_summary_witness :
    (Investment.mk ⟨2023, 1, 1⟩ 100 50 2 (some 100) (some 0)).value =
      (calculateReturns [⟨2023, 1, 1⟩] 100
        [(⟨2023, 1, 1⟩, 50)]).summary.currentValue ∧
    (Investment.mk ⟨2023, 1, 1⟩ 100 50 2 (some 100) (some 0)).ret =
      (calculateReturns [⟨2023, 1, 1⟩] 100
        [(⟨2023, 1, 1⟩, 50)]).summary.totalReturn :=
  calculateReturns_last_event_matches_summary [⟨2023, 1, 1⟩] 100
    [(⟨2023, 1, 1⟩, 50)]
    (Investment.mk ⟨2023, 1, 1⟩ 100 50 2 (some 100) (some 0))
    (by with_unfolding_all decide)
